import Mathlib

/-!
Shallow embedding of the cloud-environment-api server
(`src/server.py` and `src/utils.py`).

The server loads a cloud environment (a list of VMs, each with an id and a
list of tags, and a list of firewall rules, each a source-tag/dest-tag pair),
builds an index from VM id to the set of ids of VMs that can attack it, and
serves point lookups against that index, instrumented by a statistics
recorder.

Python dictionaries keyed by strings are embedded as functions
`String → Option _` (a key is present exactly when the function returns
`some`); `defaultdict(set)` is embedded as a total function
`String → Finset String` defaulting to `∅`, matching the defaultdict's
behaviour of yielding an empty set for a missing key.  Python `set`s become
`Finset String`: every set-valued result in the source is insertion-order
independent, so the quotient loses nothing.  Dictionary update loops become
`List.foldl` over the same sequence the source iterates.
-/

/-- A virtual machine entry of the environment json: `vm_id` and `tags`. -/
structure VM where
  vm_id : String
  tags : List String
deriving DecidableEq, Repr

/-- A firewall rule entry of the environment json: `source_tag`, `dest_tag`. -/
structure FwRule where
  source_tag : String
  dest_tag : String
deriving DecidableEq, Repr

/-- The parsed environment json: the `vms` list and the `fw_rules` list. -/
structure Environment where
  vms : List VM
  fw_rules : List FwRule
deriving DecidableEq, Repr

/-- The global `vm_id_to_attackers` dictionary of `server.py`, embedded as a
partial map from VM id to attacker-id set. -/
abbrev AttackerIndex := String → Option (Finset String)

/-- The initial value of the global `vm_id_to_attackers = {}`. -/
def empty_index : AttackerIndex := fun _ => none

/-- The `tag_to_vm_ids` defaultdict built by `parse_environment_json`:
for each vm, for each of its tags, `tag_to_vm_ids[tag].add(vm['vm_id'])`.
A tag with no entry yields `∅` (defaultdict behaviour). -/
def tag_to_vm_ids (vms : List VM) : String → Finset String :=
  vms.foldl
    (fun m vm => vm.tags.foldl
      (fun m' tag => fun q => if q = tag then insert vm.vm_id (m' q) else m' q) m)
    (fun _ => ∅)

/-- The `dest_tag_to_source_tags` defaultdict built by `parse_environment_json`:
for each rule, `dest_tag_to_source_tags[rule['dest_tag']].add(rule['source_tag'])`.
A tag with no entry yields `∅` (defaultdict behaviour). -/
def dest_tag_to_source_tags (rules : List FwRule) : String → Finset String :=
  rules.foldl
    (fun m r => fun q => if q = r.dest_tag then insert r.source_tag (m q) else m q)
    (fun _ => ∅)

/-- The `threatening_source_tags` accumulation inside
`populate_vm_id_to_attackers`: the source builds a Python list by `+=` over
`dest_tag_to_source_tags[tag]` for each tag of the vm; the list is only ever
consumed by set-union, so its embedding is the union of those sets. -/
def threatening_source_tags (d2s : String → Finset String) (vm : VM) : Finset String :=
  vm.tags.foldl (fun acc tag => acc ∪ d2s tag) ∅

/-- The attacker set computed for one vm inside `populate_vm_id_to_attackers`:
`vm_id_to_attackers[vm['vm_id']] = set()` followed by
`update(tag_to_vm_ids[tag])` for each threatening source tag. -/
def attackers_of_vm (t2v d2s : String → Finset String) (vm : VM) : Finset String :=
  (threatening_source_tags d2s vm).biUnion t2v

/-- `populate_vm_id_to_attackers` of `server.py`: iterates over the vms in
order and, for each, overwrites the global entry for its id with the computed
attacker set.  The prior global state is the `m0` argument. -/
def populate_vm_id_to_attackers (vms : List VM) (t2v d2s : String → Finset String)
    (m0 : AttackerIndex) : AttackerIndex :=
  vms.foldl
    (fun m vm => fun q => if q = vm.vm_id then some (attackers_of_vm t2v d2s vm) else m q)
    m0

/-- `parse_environment_json` of `server.py`: builds the two helper
defaultdicts from the environment and then runs `populate_vm_id_to_attackers`
over the prior global state `m0`. -/
def parse_environment_json (env : Environment) (m0 : AttackerIndex) : AttackerIndex :=
  populate_vm_id_to_attackers env.vms (tag_to_vm_ids env.vms)
    (dest_tag_to_source_tags env.fw_rules) m0

/-- The `attack` endpoint of `server.py`: looks the queried id up in
`vm_id_to_attackers`; a present key returns its stored attacker set (the
transport layer stringifies a fresh list built from it, so the caller gets a
copy), a missing key raises `KeyError`, answered by
`abort(Response('Vm_id not found.'))`. -/
def attack (index : AttackerIndex) (vm_id : String) : Except String (Finset String) :=
  match index vm_id with
  | some s => Except.ok s
  | none => Except.error "Vm_id not found."

instance : DecidableEq (Except String (Finset String)) := fun a b =>
  match a, b with
  | Except.ok a, Except.ok b =>
      if h : a = b then isTrue (by rw [h]) else isFalse (fun hc => h (Except.ok.inj hc))
  | Except.error a, Except.error b =>
      if h : a = b then isTrue (by rw [h]) else isFalse (fun hc => h (Except.error.inj hc))
  | Except.ok _, Except.error _ => isFalse (fun hc => Except.noConfusion hc)
  | Except.error _, Except.ok _ => isFalse (fun hc => Except.noConfusion hc)

/-- One `{'method_count': …, 'total_method_time': …}` record of
`StatRecorder._recorded_methods`.  Wall-clock durations are embedded as
rationals. -/
structure MethodStats where
  method_count : Nat
  total_method_time : ℚ
deriving DecidableEq, Repr

/-- The `StatRecorder._recorded_methods` dictionary. -/
abbrev RecordedMethods := String → Option MethodStats

/-- One call through the `StatRecorder.method_recorder` wrapper of
`utils.py`.  Before invoking the wrapped function the wrapper initialises the
method's record to zeroes if absent.  The wrapped call either returns a value
(`Except.ok`) or raises (`Except.error`, as `attack` does via `abort`); the
observed duration is the difference of the two `time.time()` reads, supplied
here as the parameter `d`.  Only when the call returns normally does control
reach the two `+=` lines, so only then are the counters updated; a raising
call propagates with the counters untouched. -/
def method_recorder_step (recorded : RecordedMethods) (name : String)
    (outcome : Except String (Finset String)) (d : ℚ) :
    RecordedMethods × Except String (Finset String) :=
  let r0 : RecordedMethods :=
    if (recorded name).isSome then recorded
    else fun q => if q = name then some ⟨0, 0⟩ else recorded q
  match outcome with
  | Except.ok v =>
      let prev := (r0 name).getD ⟨0, 0⟩
      (fun q => if q = name then
          some ⟨prev.method_count + 1, prev.total_method_time + d⟩
        else r0 q,
       Except.ok v)
  | Except.error e => (r0, Except.error e)

/-- `StatRecorder.get_method_stats` of `utils.py`: the stored record, or
`{'method_count': 0, 'total_method_time': 0}` on `KeyError`. -/
def get_method_stats (recorded : RecordedMethods) (method : String) : MethodStats :=
  (recorded method).getD ⟨0, 0⟩

/-- The `attack` endpoint as deployed: decorated by
`StatRecorder.method_recorder`, recorded under `attack.__name__ = "attack"`. -/
def instrumented_attack (index : AttackerIndex) (recorded : RecordedMethods)
    (vm_id : String) (d : ℚ) : RecordedMethods × Except String (Finset String) :=
  method_recorder_step recorded "attack" (attack index vm_id) d

/-- The `average_request_time` value computed by the `stats` endpoint of
`server.py`: `'N/A'` (embedded as `none`) when the recorded `method_count` is
falsy, i.e. zero, otherwise `total_method_time / method_count`. -/
def average_request_time (recorded : RecordedMethods) (name : String) : Option ℚ :=
  let s := get_method_stats recorded name
  if s.method_count = 0 then none
  else some (s.total_method_time / s.method_count)

/-! ### Lemmas on the fold-built maps -/

lemma mem_tag_to_vm_ids_inner (id : String) (tags : List String)
    (m : String → Finset String) (q x : String) :
    x ∈ (tags.foldl (fun m' tag => fun p => if p = tag then insert id (m' p) else m' p) m) q ↔
      x ∈ m q ∨ (x = id ∧ q ∈ tags) := by
  induction tags generalizing m with
  | nil => simp
  | cons t ts ih =>
      simp only [List.foldl_cons, ih, List.mem_cons]
      split_ifs with hq
      · subst hq
        simp only [Finset.mem_insert]
        constructor
        · rintro ((rfl | h) | ⟨rfl, h⟩)
          · exact Or.inr ⟨rfl, Or.inl trivial⟩
          · exact Or.inl h
          · exact Or.inr ⟨rfl, Or.inr h⟩
        · rintro (h | ⟨rfl, (h | h)⟩)
          · exact Or.inl (Or.inr h)
          · exact Or.inl (Or.inl rfl)
          · exact Or.inr ⟨rfl, h⟩
      · constructor
        · rintro (h | ⟨rfl, h⟩)
          · exact Or.inl h
          · exact Or.inr ⟨rfl, Or.inr h⟩
        · rintro (h | ⟨rfl, (h | h)⟩)
          · exact Or.inl h
          · exact absurd h hq
          · exact Or.inr ⟨rfl, h⟩

lemma mem_tag_to_vm_ids_from (vms : List VM) (m : String → Finset String) (q x : String) :
    x ∈ (vms.foldl
          (fun m vm => vm.tags.foldl
            (fun m' tag => fun p => if p = tag then insert vm.vm_id (m' p) else m' p) m)
          m) q ↔
      x ∈ m q ∨ ∃ vm ∈ vms, x = vm.vm_id ∧ q ∈ vm.tags := by
  induction vms generalizing m with
  | nil => simp
  | cons v vs ih =>
      simp only [List.foldl_cons, ih, mem_tag_to_vm_ids_inner, List.mem_cons]
      constructor
      · rintro ((h | h) | ⟨vm, hvm, h⟩)
        · exact Or.inl h
        · exact Or.inr ⟨v, Or.inl rfl, h⟩
        · exact Or.inr ⟨vm, Or.inr hvm, h⟩
      · rintro (h | ⟨vm, (rfl | hvm), h⟩)
        · exact Or.inl (Or.inl h)
        · exact Or.inl (Or.inr h)
        · exact Or.inr ⟨vm, hvm, h⟩

lemma mem_tag_to_vm_ids (vms : List VM) (q x : String) :
    x ∈ tag_to_vm_ids vms q ↔ ∃ vm ∈ vms, x = vm.vm_id ∧ q ∈ vm.tags := by
  simpa using mem_tag_to_vm_ids_from vms (fun _ => ∅) q x

lemma mem_dest_tag_to_source_tags_from (rules : List FwRule)
    (m : String → Finset String) (q s : String) :
    s ∈ (rules.foldl
          (fun m r => fun p => if p = r.dest_tag then insert r.source_tag (m p) else m p)
          m) q ↔
      s ∈ m q ∨ ∃ r ∈ rules, q = r.dest_tag ∧ s = r.source_tag := by
  induction rules generalizing m with
  | nil => simp
  | cons r rs ih =>
      simp only [List.foldl_cons, ih, List.mem_cons]
      split_ifs with hq
      · subst hq
        simp only [Finset.mem_insert]
        constructor
        · rintro ((h | h) | ⟨r', hr, h1, h2⟩)
          · exact Or.inr ⟨r, Or.inl rfl, rfl, h⟩
          · exact Or.inl h
          · exact Or.inr ⟨r', Or.inr hr, h1, h2⟩
        · rintro (h | ⟨r', (rfl | hr), h1, h2⟩)
          · exact Or.inl (Or.inr h)
          · exact Or.inl (Or.inl h2)
          · exact Or.inr ⟨r', hr, h1, h2⟩
      · constructor
        · rintro (h | ⟨r', hr, h1, h2⟩)
          · exact Or.inl h
          · exact Or.inr ⟨r', Or.inr hr, h1, h2⟩
        · rintro (h | ⟨r', (rfl | hr), h1, h2⟩)
          · exact Or.inl h
          · exact absurd h1 hq
          · exact Or.inr ⟨r', hr, h1, h2⟩

lemma mem_dest_tag_to_source_tags (rules : List FwRule) (q s : String) :
    s ∈ dest_tag_to_source_tags rules q ↔
      ∃ r ∈ rules, q = r.dest_tag ∧ s = r.source_tag := by
  simpa using mem_dest_tag_to_source_tags_from rules (fun _ => ∅) q s

lemma mem_threatening_from (d2s : String → Finset String) (tags : List String)
    (acc : Finset String) (s : String) :
    s ∈ tags.foldl (fun acc tag => acc ∪ d2s tag) acc ↔
      s ∈ acc ∨ ∃ t ∈ tags, s ∈ d2s t := by
  induction tags generalizing acc with
  | nil => simp
  | cons t ts ih =>
      simp only [List.foldl_cons, ih, Finset.mem_union, List.mem_cons]
      constructor
      · rintro ((h | h) | ⟨t', ht, h⟩)
        · exact Or.inl h
        · exact Or.inr ⟨t, Or.inl rfl, h⟩
        · exact Or.inr ⟨t', Or.inr ht, h⟩
      · rintro (h | ⟨t', (rfl | ht), h⟩)
        · exact Or.inl (Or.inl h)
        · exact Or.inl (Or.inr h)
        · exact Or.inr ⟨t', ht, h⟩

lemma mem_threatening_source_tags (d2s : String → Finset String) (vm : VM) (s : String) :
    s ∈ threatening_source_tags d2s vm ↔ ∃ t ∈ vm.tags, s ∈ d2s t := by
  simpa [threatening_source_tags] using mem_threatening_from d2s vm.tags ∅ s

lemma mem_attackers_of_vm (t2v d2s : String → Finset String) (vm : VM) (x : String) :
    x ∈ attackers_of_vm t2v d2s vm ↔
      ∃ s, (∃ t ∈ vm.tags, s ∈ d2s t) ∧ x ∈ t2v s := by
  simp [attackers_of_vm, Finset.mem_biUnion, mem_threatening_source_tags]

/-! ### Last-write-wins form of the populate loop -/

/-- The last element of `vms` whose `vm_id` is `q`, if any: the overwrite
loop of `populate_vm_id_to_attackers` leaves exactly this entry's value in
the global dictionary under key `q`. -/
def lastWrite (q : String) : List VM → Option VM
  | [] => none
  | vm :: rest =>
      match lastWrite q rest with
      | some w => some w
      | none => if vm.vm_id = q then some vm else none

lemma lastWrite_eq_none_iff (q : String) (vms : List VM) :
    lastWrite q vms = none ↔ ∀ vm ∈ vms, vm.vm_id ≠ q := by
  induction vms with
  | nil => simp [lastWrite]
  | cons v vs ih =>
      simp only [lastWrite]
      cases h : lastWrite q vs with
      | some w =>
          constructor
          · intro hc; exact Option.noConfusion hc
          · intro hall
            have h2 := ih.mpr (fun vm hvm => hall vm (List.mem_cons_of_mem v hvm))
            exact Option.noConfusion (h2.symm.trans h)
      | none =>
          by_cases hv : v.vm_id = q
          · rw [if_pos hv]
            constructor
            · intro hc; exact Option.noConfusion hc
            · intro hall; exact absurd hv (hall v (List.mem_cons_self v vs))
          · rw [if_neg hv]
            constructor
            · intro _ vm hvm
              rcases List.mem_cons.mp hvm with rfl | hvm'
              · exact hv
              · exact (ih.mp h) vm hvm'
            · intro _; rfl

lemma populate_cons (v : VM) (vs : List VM) (t2v d2s : String → Finset String)
    (m : AttackerIndex) :
    populate_vm_id_to_attackers (v :: vs) t2v d2s m =
      populate_vm_id_to_attackers vs t2v d2s
        (fun q => if q = v.vm_id then some (attackers_of_vm t2v d2s v) else m q) := rfl

lemma populate_lookup (vms : List VM) (t2v d2s : String → Finset String)
    (m : AttackerIndex) (q : String) :
    populate_vm_id_to_attackers vms t2v d2s m q =
      match lastWrite q vms with
      | some w => some (attackers_of_vm t2v d2s w)
      | none => m q := by
  induction vms generalizing m with
  | nil => rfl
  | cons v vs ih =>
      rw [populate_cons, ih]
      cases h : lastWrite q vs with
      | some w => simp [lastWrite, h]
      | none =>
          simp only [lastWrite, h]
          by_cases hv : v.vm_id = q
          · subst hv; simp
          · have hv' : ¬ q = v.vm_id := fun hc => hv hc.symm
            simp [if_neg hv, if_neg hv']

lemma lastWrite_of_nodup {vms : List VM} {v : VM}
    (hnd : (vms.map VM.vm_id).Nodup) (hv : v ∈ vms) :
    lastWrite v.vm_id vms = some v := by
  induction vms with
  | nil => exact absurd hv (List.not_mem_nil v)
  | cons w ws ih =>
      rw [List.map_cons, List.nodup_cons] at hnd
      rcases List.mem_cons.mp hv with rfl | hv'
      · have hnone : lastWrite v.vm_id ws = none := by
          rw [lastWrite_eq_none_iff]
          intro vm hvm hc
          exact hnd.1 (hc ▸ List.mem_map_of_mem VM.vm_id hvm)
        simp [lastWrite, hnone]
      · simp [lastWrite, ih hnd.2 hv']

/-! ### Concrete environments from the specification's test scenarios -/

/-- The spec's concrete scenario: VMs `A={web}`, `B={db}`, `C={admin}` and
the single rule `(source=web, dest=db)`. -/
def envWebDb : Environment :=
  ⟨[⟨"A", ["web"]⟩, ⟨"B", ["db"]⟩, ⟨"C", ["admin"]⟩], [⟨"web", "db"⟩]⟩

example : parse_environment_json envWebDb empty_index "B" = some {"A"} := by decide
example : parse_environment_json envWebDb empty_index "C" = some ∅ := by decide
example : parse_environment_json envWebDb empty_index "A" = some ∅ := by decide
example : parse_environment_json envWebDb empty_index "Z" = none := by decide

/-- The spec's self-attack scenario: a single VM `A={x, y}` and the single
rule `(source=x, dest=y)`. -/
def envSelfAttack : Environment := ⟨[⟨"A", ["x", "y"]⟩], [⟨"x", "y"⟩]⟩

/-! ### Spec-side attacker set, for the refinement claim C1 -/

/-- The attacker set exactly as the specification's words state it: the
union, over each tag `t` of `v`, of the set of ids of VMs `w` such that `w`
carries some tag `s` and a firewall rule `(source_tag = s, dest_tag = t)`
exists.  This definition follows the spec's sentence, to be compared with
the code-side `attackers_of_vm`. -/
def specAttackers (env : Environment) (v : VM) : Finset String :=
  v.tags.toFinset.biUnion (fun t =>
    ((env.vms.filter (fun w => decide (∃ s ∈ w.tags, ∃ r ∈ env.fw_rules,
        r.source_tag = s ∧ r.dest_tag = t))).map (fun w => w.vm_id)).toFinset)

lemma attackers_of_vm_eq_specAttackers (env : Environment) (v : VM) :
    attackers_of_vm (tag_to_vm_ids env.vms) (dest_tag_to_source_tags env.fw_rules) v =
      specAttackers env v := by
  ext x
  rw [mem_attackers_of_vm]
  simp only [specAttackers, Finset.mem_biUnion, List.mem_toFinset, List.mem_filter,
    List.mem_map, mem_dest_tag_to_source_tags, mem_tag_to_vm_ids, decide_eq_true_eq]
  constructor
  · rintro ⟨s, ⟨t, ht, r, hr, h1, h2⟩, w, hw, rfl, hsw⟩
    exact ⟨t, ht, w, ⟨hw, s, hsw, r, hr, h2.symm, h1.symm⟩, rfl⟩
  · rintro ⟨t, ht, w, ⟨hw, s, hsw, r, hr, h1, h2⟩, rfl⟩
    exact ⟨s, ⟨t, ht, r, hr, h2.symm, h1.symm⟩, w, hw, rfl, hsw⟩

/-! ### Claim theorems -/

/-- C1.  For every VM `v` in the loaded environment (whose vm ids are
unique, as the spec's data model requires), the built attacker index maps
`v`'s id to exactly the union, over each tag `t` of `v`, of the set of ids
of VMs `w` such that `w` carries some tag `s` and a firewall rule
`(source_tag = s, dest_tag = t)` exists — exactly, also when that union is
empty. -/
theorem C1_attacker_index_matches_spec (env : Environment) (v : VM)
    (hv : v ∈ env.vms) (hnd : (env.vms.map VM.vm_id).Nodup) :
    parse_environment_json env empty_index v.vm_id = some (specAttackers env v) := by
  rw [parse_environment_json, populate_lookup, lastWrite_of_nodup hnd hv]
  exact congrArg some (attackers_of_vm_eq_specAttackers env v)

theorem C1_attacker_index_matches_spec_witness :
    parse_environment_json envWebDb empty_index "B" =
        some (specAttackers envWebDb ⟨"B", ["db"]⟩) ∧
      specAttackers envWebDb ⟨"B", ["db"]⟩ = {"A"} :=
  ⟨C1_attacker_index_matches_spec envWebDb ⟨"B", ["db"]⟩ (by decide) (by decide), by decide⟩

/-- C3.  The `attack` lookup returns the stored attacker set with a
success outcome if and only if the queried id is a key of the attacker
index, and reports the not-found error if and only if it is not; an absent
id never yields an empty-but-found result and a present id never yields
not-found. -/
theorem C3_attack_found_iff_key (index : AttackerIndex) (vm_id : String) :
    (∀ s, attack index vm_id = Except.ok s ↔ index vm_id = some s) ∧
    (attack index vm_id = Except.error "Vm_id not found." ↔ index vm_id = none) := by
  constructor
  · intro s
    cases h : index vm_id with
    | some t => simp [attack, h]
    | none => simp [attack, h]
  · cases h : index vm_id with
    | some t => simp [attack, h]
    | none => simp [attack, h]

theorem C3_attack_found_iff_key_witness :
    attack (parse_environment_json envWebDb empty_index) "B" = Except.ok {"A"} ∧
    attack (parse_environment_json envWebDb empty_index) "Z" =
      Except.error "Vm_id not found." := by
  constructor
  · exact ((C3_attack_found_iff_key (parse_environment_json envWebDb empty_index)
      "B").1 {"A"}).mpr (by decide)
  · exact (C3_attack_found_iff_key (parse_environment_json envWebDb empty_index)
      "Z").2.mpr (by decide)

/-- C4.  After building the index from any environment, every VM id that
occurs as a member of some stored attacker set (and trivially every key) is
itself a key of the attacker index. -/
theorem C4_referenced_ids_are_keys (env : Environment) (q x : String)
    (s : Finset String) (hq : parse_environment_json env empty_index q = some s)
    (hx : x ∈ s) :
    (parse_environment_json env empty_index q).isSome = true ∧
    (parse_environment_json env empty_index x).isSome = true := by
  refine ⟨by rw [hq]; rfl, ?_⟩
  rw [parse_environment_json, populate_lookup] at hq
  cases h : lastWrite q env.vms with
  | none =>
      rw [h] at hq
      exact Option.noConfusion hq
  | some w =>
      rw [h] at hq
      have hs : attackers_of_vm (tag_to_vm_ids env.vms)
          (dest_tag_to_source_tags env.fw_rules) w = s := Option.some.inj hq
      rw [← hs] at hx
      obtain ⟨s', _, hx2⟩ := (mem_attackers_of_vm _ _ _ _).mp hx
      obtain ⟨vm, hvm, rfl, _⟩ := (mem_tag_to_vm_ids _ _ _).mp hx2
      rw [parse_environment_json, populate_lookup]
      cases h2 : lastWrite vm.vm_id env.vms with
      | some w2 => simp
      | none => exact absurd rfl ((lastWrite_eq_none_iff _ _).mp h2 vm hvm)

theorem C4_referenced_ids_are_keys_witness :
    (parse_environment_json envWebDb empty_index "A").isSome = true :=
  (C4_referenced_ids_are_keys envWebDb "B" "A" {"A"} (by decide) (by decide)).2

/-- C5.  Self-attack is not excluded: on the environment with the single
VM `A = {x, y}` and the single rule `(source_tag = x, dest_tag = y)`, the
built index maps `A` to the set containing exactly `A`'s own id. -/
theorem C5_self_attack :
    parse_environment_json envSelfAttack empty_index "A" = some {"A"} := by decide

/-- C7.  Index construction is idempotent and deterministic: running the
build a second time on the same environment, over the state left by the
first run, yields a pointwise identical attacker index. -/
theorem C7_build_idempotent (env : Environment) (m0 : AttackerIndex) (q : String) :
    parse_environment_json env (parse_environment_json env m0) q =
      parse_environment_json env m0 q := by
  rw [parse_environment_json, parse_environment_json, populate_lookup, populate_lookup]
  cases h : lastWrite q env.vms with
  | some w => rfl
  | none => rfl

/-- C2, counterexample.  The claim says the recorder increments the
invocation count by exactly 1 on every call, also on a NotFound outcome.
On the code, a NotFound query raises through the wrapper (via `abort`)
before the counter lines run: after a not-found call on a fresh recorder the
count is still 0, not 1. -/
theorem C2_counterexample_notfound_not_counted :
    ¬ ((get_method_stats (instrumented_attack empty_index (fun _ => none)
          "does-not-exist" 1).1 "attack").method_count =
        (get_method_stats (fun _ => none) "attack").method_count + 1) := by decide

/-- C2, amended.  The instrumented `attack` forwards the wrapped
outcome unchanged; on a call that returns an attacker set it increments the
operation's count by exactly 1 and adds the observed duration to the running
total, but on a call that reports NotFound the exception propagates before
the counter lines, leaving the recorded count and total unchanged. -/
theorem C2_amended_counters (recorded : RecordedMethods) (index : AttackerIndex)
    (vm_id : String) (d : ℚ) :
    (∀ s, attack index vm_id = Except.ok s →
        get_method_stats (instrumented_attack index recorded vm_id d).1 "attack" =
          ⟨(get_method_stats recorded "attack").method_count + 1,
            (get_method_stats recorded "attack").total_method_time + d⟩) ∧
    (attack index vm_id = Except.error "Vm_id not found." →
        get_method_stats (instrumented_attack index recorded vm_id d).1 "attack" =
          get_method_stats recorded "attack") ∧
    (instrumented_attack index recorded vm_id d).2 = attack index vm_id := by
  refine ⟨?_, ?_, ?_⟩
  · intro s hs
    by_cases hrec : (recorded "attack").isSome
    · obtain ⟨st, hst⟩ := Option.isSome_iff_exists.mp hrec
      simp [instrumented_attack, method_recorder_step, get_method_stats, hs, hrec, hst]
    · have hst : recorded "attack" = none := Option.not_isSome_iff_eq_none.mp hrec
      simp [instrumented_attack, method_recorder_step, get_method_stats, hs, hrec, hst]
  · intro hs
    by_cases hrec : (recorded "attack").isSome
    · obtain ⟨st, hst⟩ := Option.isSome_iff_exists.mp hrec
      simp [instrumented_attack, method_recorder_step, get_method_stats, hs, hrec, hst]
    · have hst : recorded "attack" = none := Option.not_isSome_iff_eq_none.mp hrec
      simp [instrumented_attack, method_recorder_step, get_method_stats, hs, hrec, hst]
  · cases hA : attack index vm_id with
    | ok v => simp [instrumented_attack, method_recorder_step, hA]
    | error e => simp [instrumented_attack, method_recorder_step, hA]

theorem C2_amended_counters_witness :
    get_method_stats (instrumented_attack (parse_environment_json envWebDb empty_index)
        (fun _ => none) "B" 1).1 "attack" = ⟨1, 1⟩ ∧
    get_method_stats (instrumented_attack (parse_environment_json envWebDb empty_index)
        (fun _ => none) "Z" 1).1 "attack" = ⟨0, 0⟩ := by
  constructor
  · have h := (C2_amended_counters (fun _ => none)
      (parse_environment_json envWebDb empty_index) "B" 1).1 {"A"} (by decide)
    rw [h]; simp [get_method_stats]
  · have h := (C2_amended_counters (fun _ => none)
      (parse_environment_json envWebDb empty_index) "Z" 1).2.1 (by decide)
    rw [h]; rfl

/-- C6.  A destination tag with no entry in the source-tags map yields
the empty set, a source tag no VM carries yields no attacker ids (neither
lookup can fail, both maps being total with default `∅`), and consequently
adding a rule whose source tag no VM carries leaves every entry of the built
attacker index unchanged. -/
theorem C6_missing_tags_contribute_nothing :
    (∀ (rules : List FwRule) (q : String), (∀ r ∈ rules, r.dest_tag ≠ q) →
        dest_tag_to_source_tags rules q = ∅) ∧
    (∀ (vms : List VM) (q : String), (∀ vm ∈ vms, q ∉ vm.tags) →
        tag_to_vm_ids vms q = ∅) ∧
    (∀ (env : Environment) (r : FwRule), (∀ vm ∈ env.vms, r.source_tag ∉ vm.tags) →
        ∀ q, parse_environment_json ⟨env.vms, r :: env.fw_rules⟩ empty_index q =
          parse_environment_json env empty_index q) := by
  refine ⟨?_, ?_, ?_⟩
  · intro rules q h
    rw [Finset.eq_empty_iff_forall_not_mem]
    intro s hs
    obtain ⟨r, hr, h1, _⟩ := (mem_dest_tag_to_source_tags rules q s).mp hs
    exact h r hr h1.symm
  · intro vms q h
    rw [Finset.eq_empty_iff_forall_not_mem]
    intro x hx
    obtain ⟨vm, hvm, _, h2⟩ := (mem_tag_to_vm_ids vms q x).mp hx
    exact h vm hvm h2
  · intro env r h q
    rw [parse_environment_json, parse_environment_json, populate_lookup, populate_lookup]
    cases hw : lastWrite q env.vms with
    | none => rfl
    | some w =>
        refine congrArg some ?_
        ext x
        rw [mem_attackers_of_vm, mem_attackers_of_vm]
        constructor
        · rintro ⟨s, ⟨t, ht, hs⟩, hx⟩
          rcases (mem_dest_tag_to_source_tags _ _ _).mp hs with ⟨r', hr', h1, h2⟩
          rcases List.mem_cons.mp hr' with rfl | hr''
          · exfalso
            obtain ⟨vm, hvm, _, hsvm⟩ := (mem_tag_to_vm_ids _ _ _).mp hx
            rw [h2] at hsvm
            exact h vm hvm hsvm
          · exact ⟨s, ⟨t, ht, (mem_dest_tag_to_source_tags _ _ _).mpr ⟨r', hr'', h1, h2⟩⟩, hx⟩
        · rintro ⟨s, ⟨t, ht, hs⟩, hx⟩
          rcases (mem_dest_tag_to_source_tags _ _ _).mp hs with ⟨r', hr', h1, h2⟩
          exact ⟨s, ⟨t, ht, (mem_dest_tag_to_source_tags _ _ _).mpr
            ⟨r', List.mem_cons_of_mem r hr', h1, h2⟩⟩, hx⟩

theorem C6_missing_tags_contribute_nothing_witness :
    dest_tag_to_source_tags [⟨"a", "b"⟩] "c" = ∅ ∧
    tag_to_vm_ids [⟨"A", ["x"]⟩] "y" = ∅ ∧
    parse_environment_json ⟨envSelfAttack.vms, ⟨"ghost", "y"⟩ :: envSelfAttack.fw_rules⟩
        empty_index "A" =
      parse_environment_json envSelfAttack empty_index "A" := by
  refine ⟨?_, ?_, ?_⟩
  · exact C6_missing_tags_contribute_nothing.1 [⟨"a", "b"⟩] "c" (by decide)
  · exact C6_missing_tags_contribute_nothing.2.1 [⟨"A", ["x"]⟩] "y" (by decide)
  · exact C6_missing_tags_contribute_nothing.2.2 envSelfAttack ⟨"ghost", "y"⟩ (by decide) "A"

/-- C8.  For a never-invoked operation name the stored-stats lookup
returns count 0 and total time 0 rather than an error, and the stats
endpoint's derived average is "N/A" (embedded as `none`) exactly when the
recorded count is 0, and `total_method_time / method_count` otherwise. -/
theorem C8_stats_default_and_average (recorded : RecordedMethods) (name : String) :
    (recorded name = none → get_method_stats recorded name = ⟨0, 0⟩) ∧
    (average_request_time recorded name = none ↔
      (get_method_stats recorded name).method_count = 0) ∧
    ((get_method_stats recorded name).method_count ≠ 0 →
      average_request_time recorded name =
        some ((get_method_stats recorded name).total_method_time /
          (get_method_stats recorded name).method_count)) := by
  refine ⟨?_, ?_, ?_⟩
  · intro h; simp [get_method_stats, h]
  · by_cases h : (get_method_stats recorded name).method_count = 0
    · simp [average_request_time, h]
    · simp [average_request_time, h]
  · intro h; simp [average_request_time, h]

theorem C8_stats_default_and_average_witness :
    get_method_stats (fun _ => none) "attack" = ⟨0, 0⟩ ∧
    average_request_time (fun _ => none) "attack" = none ∧
    average_request_time (fun q => if q = "attack" then some ⟨2, 5⟩ else none)
      "attack" = some (5 / 2) := by
  refine ⟨?_, ?_, ?_⟩
  · exact (C8_stats_default_and_average (fun _ => none) "attack").1 rfl
  · exact (C8_stats_default_and_average (fun _ => none) "attack").2.1.mpr (by decide)
  · have h := (C8_stats_default_and_average
      (fun q => if q = "attack" then some ⟨2, 5⟩ else none) "attack").2.2 (by decide)
    rw [h]; norm_num [get_method_stats]

lemma lastWrite_append_last (q : String) (w : VM) (l1 l2 : List VM)
    (hid : w.vm_id = q) (hl2 : ∀ vm ∈ l2, vm.vm_id ≠ q) :
    lastWrite q (l1 ++ w :: l2) = some w := by
  induction l1 with
  | nil =>
      rw [List.nil_append]
      simp only [lastWrite]
      rw [(lastWrite_eq_none_iff q l2).mpr hl2, if_pos hid]
  | cons a l1' ih =>
      rw [List.cons_append]
      simp only [lastWrite, ih]

/-- C10.  When the vms sequence contains several entries sharing an id
(`env.vms = l1 ++ vlast :: l2` with `vlast.vm_id = q` and no entry of `l2`
carrying id `q`, i.e. `vlast` is the last entry with that id), the built
index's single entry for `q` is the attacker set computed from `vlast`'s
tags, while every occurrence's tags still put that id into `tag_to_vm_ids`
(and hence into other VMs' attacker sets). -/
theorem C10_duplicate_ids_last_wins (env : Environment) (q : String) (vlast : VM)
    (l1 l2 : List VM) (hdec : env.vms = l1 ++ vlast :: l2) (hid : vlast.vm_id = q)
    (hl2 : ∀ vm ∈ l2, vm.vm_id ≠ q) :
    parse_environment_json env empty_index q =
      some (attackers_of_vm (tag_to_vm_ids env.vms)
        (dest_tag_to_source_tags env.fw_rules) vlast) ∧
    (∀ vm ∈ env.vms, ∀ t ∈ vm.tags, vm.vm_id ∈ tag_to_vm_ids env.vms t) := by
  constructor
  · rw [parse_environment_json, populate_lookup, hdec,
      lastWrite_append_last q vlast l1 l2 hid hl2]
  · intro vm hvm t ht
    exact (mem_tag_to_vm_ids _ _ _).mpr ⟨vm, hvm, rfl, ht⟩

/-- The environment used to witness C10: the id `A` occurs twice, first with
tag `src1`, last with tag `dst`, and the rule `(src1, dst)` makes the first
occurrence's tag turn `A` into its own attacker through the last
occurrence's entry. -/
def envDup : Environment :=
  ⟨[⟨"A", ["src1"]⟩, ⟨"B", ["mid"]⟩, ⟨"A", ["dst"]⟩], [⟨"src1", "dst"⟩]⟩

theorem C10_duplicate_ids_last_wins_witness :
    parse_environment_json envDup empty_index "A" =
      some (attackers_of_vm (tag_to_vm_ids envDup.vms)
        (dest_tag_to_source_tags envDup.fw_rules) ⟨"A", ["dst"]⟩) ∧
    attackers_of_vm (tag_to_vm_ids envDup.vms)
      (dest_tag_to_source_tags envDup.fw_rules) ⟨"A", ["dst"]⟩ = {"A"} ∧
    "A" ∈ tag_to_vm_ids envDup.vms "src1" := by
  have h := C10_duplicate_ids_last_wins envDup "A" ⟨"A", ["dst"]⟩
    [⟨"A", ["src1"]⟩, ⟨"B", ["mid"]⟩] [] rfl rfl (by decide)
  exact ⟨h.1, by decide, h.2 ⟨"A", ["src1"]⟩ (by decide) "src1" (by decide)⟩
